import Mathlib

/-!
# Verification of the c2j CSV-to-map aggregation core

Shallow embedding of `src/index.js`: the key builder (`getKey`), the value
projector (`getValue`), the two accumulation policies (`doNormal`,
`doDupKeys`), the sequential multi-source driver (`doIt`) and the option
normalization performed by `build`.

JavaScript runtime behaviour relevant to the embedding:
- reading an absent property yields `undefined`; concatenating `undefined`
  onto a string appends the text "undefined"; using `undefined` as a
  property key coerces it to the string "undefined";
- `!x` and `x || y` use JS falsiness: for the values that can appear here,
  `undefined` and the empty string are falsy, objects and arrays (even
  empty ones) are truthy;
- `o.push(v)` throws a TypeError when `o` is not an array, so `doDupKeys`
  is modelled as returning an `Option` (`none` = uncaught exception).

Rows and the result map are ordered association lists (JS object insertion
order); assignment to an existing key updates it in place, assignment to a
fresh key appends.
-/

namespace C2j

/-- A JavaScript value as it can occur in the result map: `undefined`, a
string (CSV cell), an object (row or sub-mapping), or an array. -/
inductive JsValue where
  | undef : JsValue
  | str : String → JsValue
  | obj : List (String × JsValue) → JsValue
  | arr : List JsValue → JsValue

/-- A parsed CSV row: column name to cell value, as produced by the parsing
collaborator with `columns: true` (first row is the header). -/
abbrev Row := List (String × String)

/-- JS property read on a row: `row[c]`, `none` = `undefined`. -/
def rowGet (row : Row) (c : String) : Option String :=
  match row with
  | [] => none
  | (k, v) :: rest => if k = c then some v else rowGet rest c

/-- String coercion of a possibly-`undefined` JS string value, as performed
by `+` concatenation and by property-key coercion: `undefined` becomes the
text "undefined". -/
def jsStr : Option String → String
  | none => "undefined"
  | some s => s

/-- A possibly-`undefined` JS string as a `JsValue`. -/
def optToVal : Option String → JsValue
  | none => JsValue.undef
  | some s => JsValue.str s

/-- The result map being built: a JS object, composite key to value. -/
abbrev ResultMap := List (String × JsValue)

/-- JS property read on an object. -/
def jsLookup (m : List (String × JsValue)) (k : String) : Option JsValue :=
  match m with
  | [] => none
  | (q, v) :: rest => if q = k then some v else jsLookup rest k

/-- JS property read yielding `undefined` for an absent key. -/
def jsGet (m : ResultMap) (k : String) : JsValue :=
  match jsLookup m k with
  | none => JsValue.undef
  | some v => v

/-- JS property assignment `m[k] = v`: update in place when the key exists,
append otherwise (JS insertion order). -/
def jsObjSet (m : List (String × JsValue)) (k : String) (v : JsValue) :
    List (String × JsValue) :=
  match m with
  | [] => [(k, v)]
  | (q, w) :: rest =>
    if q = k then (q, v) :: rest else (q, w) :: jsObjSet rest k v

/-- JS falsiness for the values that can appear in the result map. -/
def jsFalsy : JsValue → Bool
  | JsValue.undef => true
  | JsValue.str s => s == ""
  | JsValue.obj _ => false
  | JsValue.arr _ => false

/-- The configuration seen by the per-row functions after `build` has
normalized its options. -/
structure Cfg where
  keyColNames : List String
  keyDelimiter : String
  valColNames : List String

/-- `getKey` (src/index.js:117-125): start from the empty string, append
`delim + row[colName]` for each key column, where `delim` is empty on the
first iteration and the delimiter afterwards. -/
def getKey (keyColNames : List String) (keyDelimiter : String) (row : Row) :
    String :=
  (keyColNames.foldl
    (fun acc colName => (acc.1 ++ acc.2 ++ jsStr (rowGet row colName),
                         keyDelimiter))
    ("", "")).1

/-- `getValue` (src/index.js:127-142): in duplicate-keys mode the value is
`row[valColNames[0]]` (index 0 of an empty array is `undefined`, which as a
property key reads `row["undefined"]`); otherwise the whole row when no
value columns are given, the scalar for a single value column, or a fresh
sub-object of the listed columns. -/
def getValue (duplicateKeys : Bool) (valColNames : List String) (row : Row) :
    JsValue :=
  if duplicateKeys then
    optToVal (rowGet row (jsStr valColNames.head?))
  else if valColNames.length = 0 then
    JsValue.obj (row.map (fun p => (p.1, JsValue.str p.2)))
  else if valColNames.length = 1 then
    optToVal (rowGet row (jsStr valColNames.head?))
  else
    JsValue.obj (valColNames.foldl
      (fun v colName => jsObjSet v colName (optToVal (rowGet row colName)))
      [])

/-- `doNormal` (src/index.js:144-148): `map[key] = value`. -/
def doNormal (c : Cfg) (map : ResultMap) (row : Row) : ResultMap :=
  jsObjSet map (getKey c.keyColNames c.keyDelimiter row)
    (getValue false c.valColNames row)

/-- `doDupKeys` (src/index.js:150-159): `o = map[key]; if (!o) { o = [];
map[key] = o; } o.push(value)`. `none` models the TypeError thrown when a
truthy non-array sits at the key (impossible in a duplicate-mode build,
see the well-formedness invariant below). -/
def doDupKeys (c : Cfg) (map : ResultMap) (row : Row) : Option ResultMap :=
  let key := getKey c.keyColNames c.keyDelimiter row
  let value := getValue true c.valColNames row
  let o := jsGet map key
  if jsFalsy o then
    some (jsObjSet map key (JsValue.arr [value]))
  else
    match o with
    | JsValue.arr l => some (jsObjSet map key (JsValue.arr (l ++ [value])))
    | _ => none

/-- The per-row dispatch in the `data` handler (src/index.js:175-181). -/
def applyRow (dup : Bool) (c : Cfg) (m : ResultMap) (row : Row) :
    Option ResultMap :=
  if dup then doDupKeys c m row else some (doNormal c m row)

/-- Draining one source's row sequence into the shared map, row by row in
arrival order. -/
def processRows (dup : Bool) (c : Cfg) : ResultMap → List Row →
    Option ResultMap
  | m, [] => some m
  | m, row :: rest =>
    match applyRow dup c m row with
    | none => none
    | some m2 => processRows dup c m2 rest

/-- One input source as seen by the aggregation core: the rows its parser
emits, then either a clean end of stream (`err = none`) or a single parse
error event (`err = some e`), per the row-parsing collaborator contract. -/
structure Source where
  rows : List Row
  err : Option String

/-- `doIt` (src/index.js:161-191): drain the current source fully, then on
a clean finish advance to the next source, on a parse error invoke the
callback with the error and stop; when all sources are exhausted invoke the
callback with the finished map. The result pairs the callback's error
argument with the map variable's state when the build ended; `none` models
an uncaught exception in the data handler. -/
def doIt (dup : Bool) (c : Cfg) : ResultMap → List Source →
    Option (Option String × ResultMap)
  | m, [] => some (none, m)
  | m, s :: rest =>
    match processRows dup c m s.rows with
    | none => none
    | some m2 =>
      match s.err with
      | some e => some (some e, m2)
      | none => doIt dup c m2 rest

/-- A value that in JS may be either a single string or an array of
strings, as accepted for `keyColNames` and `valColNames`. -/
inductive StrOrList where
  | str : String → StrOrList
  | list : List String → StrOrList

/-- JS falsiness of such a value: only the empty string is falsy; every
array, even the empty one, is truthy. -/
def StrOrList.falsy : StrOrList → Bool
  | StrOrList.str s => s == ""
  | StrOrList.list _ => false

/-- The `if (!Array.isArray(x)) x = [x]` normalization. -/
def StrOrList.toList : StrOrList → List String
  | StrOrList.str s => [s]
  | StrOrList.list l => l

/-- `x || d` on a possibly-absent JS string. -/
def jsOrStr : Option String → String → String
  | none, d => d
  | some s, d => if s == "" then d else s

/-- The options record passed to `build`. Stream resolution (files, inline
text, standard input) is byte-level I/O performed by external
collaborators; a source is modelled by the row sequence its parser emits
and its terminal event. An absent `input` resolves to the standard-input
source, which is likewise just a `Source`, so `input` is kept here as the
already-resolved source list. -/
structure Options where
  input : List Source
  keyColNames : Option StrOrList
  valColNames : Option StrOrList
  duplicateKeys : Bool
  keyDelimiter : Option String

/-- The outcome of one `build` call: a synchronous configuration throw, an
uncaught exception, or the single callback invocation `cb(err)` /
`cb(null, map)`. -/
inductive BuildResult where
  | configError : String → BuildResult
  | crash : BuildResult
  | cbErr : String → BuildResult
  | done : ResultMap → BuildResult

/-- `build` (src/index.js:80-193): resolve the delimiter with
`options.keyDelimiter || "_"`, throw when `options.keyColNames` is falsy
(absent or the empty string), normalize scalar specs to one-element lists,
default an absent or falsy `valColNames` to `[]`, then run `doIt` over the
sources with the shared empty map. -/
def build (o : Options) : BuildResult :=
  let keyDelimiter := jsOrStr o.keyDelimiter "_"
  match o.keyColNames with
  | none => BuildResult.configError "options.keyColNames required."
  | some kc =>
    if kc.falsy then BuildResult.configError "options.keyColNames required."
    else
      let valColNames : List String :=
        match o.valColNames with
        | none => []
        | some vc => if vc.falsy then [] else vc.toList
      let c : Cfg := ⟨kc.toList, keyDelimiter, valColNames⟩
      match doIt o.duplicateKeys c [] o.input with
      | none => BuildResult.crash
      | some (some e, _) => BuildResult.cbErr e
      | some (none, m) => BuildResult.done m

/-! ## Spec-side definitions

These follow the spec's wording and are compared with the embedded code. -/

/-- Spec §4.1: the composite key is the values joined by the delimiter,
with no leading or trailing delimiter. -/
def joinSpec (delim : String) : List String → String
  | [] => ""
  | s :: ss => ss.foldl (fun acc x => acc ++ delim ++ x) s

/-- Spec §4.2, non-duplicate mode: empty spec yields the whole row,
a singleton spec yields that column's scalar, a longer spec yields a new
sub-mapping of exactly the listed columns in listed order. -/
def projectSpec (valColNames : List String) (row : Row) : JsValue :=
  match valColNames with
  | [] => JsValue.obj (row.map (fun p => (p.1, JsValue.str p.2)))
  | [c] => optToVal (rowGet row c)
  | _ => JsValue.obj (valColNames.map (fun c => (c, optToVal (rowGet row c))))

/-- The last row of `rows` whose composite key is `k`, if any. -/
def lastMatch (c : Cfg) (k : String) : List Row → Option Row
  | [] => none
  | r :: rs =>
    match lastMatch c k rs with
    | some q => some q
    | none =>
      if getKey c.keyColNames c.keyDelimiter r = k then some r else none

/-- The projected values of the rows whose composite key is `k`, in row
arrival order (duplicate-keys mode projection). -/
def projList (c : Cfg) (k : String) (rows : List Row) : List JsValue :=
  (rows.filter (fun r => getKey c.keyColNames c.keyDelimiter r == k)).map
    (getValue true c.valColNames)

/-- Well-formedness of a duplicate-mode map: every stored value is a
non-empty array. -/
def WFdup (m : ResultMap) : Prop :=
  ∀ p ∈ m, ∃ l, l ≠ [] ∧ p.2 = JsValue.arr l

/-! ## Association-list map lemmas -/

theorem jsGet_set_self (m : ResultMap) (k : String) (v : JsValue) :
    jsGet (jsObjSet m k v) k = v := by
  induction m with
  | nil => simp [jsObjSet, jsGet, jsLookup]
  | cons p rest ih =>
    obtain ⟨q, w⟩ := p
    by_cases h : q = k
    · simp [jsObjSet, h, jsGet, jsLookup]
    · simp [jsObjSet, h, jsGet, jsLookup] at ih ⊢
      exact ih

theorem jsGet_set_ne (m : ResultMap) {q k : String} (v : JsValue)
    (h : q ≠ k) : jsGet (jsObjSet m q v) k = jsGet m k := by
  induction m with
  | nil => simp [jsObjSet, jsGet, jsLookup, h]
  | cons p rest ih =>
    obtain ⟨q', w⟩ := p
    by_cases hq : q' = q
    · subst hq
      simp [jsObjSet, jsGet, jsLookup, h]
    · by_cases hk : q' = k
      · subst hk
        simp [jsObjSet, jsGet, jsLookup, hq]
      · simp [jsObjSet, jsGet, jsLookup, hq, hk] at ih ⊢
        exact ih

/-! ## Key builder characterization -/

theorem getKey_fold (delim : String) (g : String → String) :
    ∀ (cols : List String) (s : String),
      (cols.foldl (fun acc c => (acc.1 ++ acc.2 ++ g c, delim)) (s, delim)).1
        = cols.foldl (fun a c => a ++ delim ++ g c) s
  | [], _ => rfl
  | c :: cs, s => by
    rw [List.foldl_cons, List.foldl_cons]
    exact getKey_fold delim g cs (s ++ delim ++ g c)

theorem getKey_join (cols : List String) (delim : String) (row : Row) :
    getKey cols delim row
      = joinSpec delim (cols.map fun c => jsStr (rowGet row c)) := by
  cases cols with
  | nil => rfl
  | cons c cs =>
    unfold getKey
    rw [List.foldl_cons, getKey_fold delim (fun c => jsStr (rowGet row c)) cs]
    simp [joinSpec, List.foldl_map]

/-! ## Overwrite mode characterization -/

theorem processRows_false (c : Cfg) :
    ∀ (rows : List Row) (m : ResultMap),
      processRows false c m rows = some (rows.foldl (doNormal c) m)
  | [], _ => rfl
  | r :: rs, m => by
    rw [List.foldl_cons]
    simpa [processRows, applyRow] using processRows_false c rs (doNormal c m r)

theorem foldl_doNormal_get (c : Cfg) :
    ∀ (rows : List Row) (m : ResultMap) (k : String),
      jsGet (rows.foldl (doNormal c) m) k
        = match lastMatch c k rows with
          | some r => getValue false c.valColNames r
          | none => jsGet m k
  | [], _, _ => rfl
  | r :: rs, m, k => by
    rw [List.foldl_cons, foldl_doNormal_get c rs (doNormal c m r) k]
    cases h : lastMatch c k rs with
    | some q => simp [lastMatch, h]
    | none =>
      simp only [lastMatch, h]
      by_cases hk : getKey c.keyColNames c.keyDelimiter r = k
      · rw [if_pos hk]
        unfold doNormal
        rw [hk, jsGet_set_self]
      · rw [if_neg hk]
        unfold doNormal
        exact jsGet_set_ne m _ hk

/-! ## Duplicate-keys mode characterization -/

/-- Appending a batch of values to whatever sits at a key: nothing yet
(`undef`) starts a fresh array, an existing array is extended. -/
def extendArr (v : JsValue) (vs : List JsValue) : JsValue :=
  match vs with
  | [] => v
  | _ :: _ =>
    match v with
    | JsValue.arr l => JsValue.arr (l ++ vs)
    | _ => JsValue.arr vs

theorem extendArr_nil (v : JsValue) : extendArr v [] = v := rfl

theorem extendArr_arr (l : List JsValue) (vs : List JsValue) :
    extendArr (JsValue.arr l) vs = JsValue.arr (l ++ vs) := by
  cases vs <;> simp [extendArr]

theorem WFdup_nil : WFdup [] := by
  intro p hp
  cases hp

theorem WFdup_jsGet :
    ∀ (m : ResultMap), WFdup m → ∀ (k : String),
      jsGet m k = JsValue.undef ∨
        ∃ l, l ≠ [] ∧ jsGet m k = JsValue.arr l
  | [], _, _ => Or.inl rfl
  | (q, v) :: rest, h, k => by
    have hrest : WFdup rest := fun p hp => h p (List.mem_cons_of_mem _ hp)
    by_cases hq : q = k
    · right
      obtain ⟨l, hl, hv⟩ := h (q, v) (List.mem_cons_self _ _)
      exact ⟨l, hl, by simp [jsGet, jsLookup, hq, hv.symm]⟩
    · have := WFdup_jsGet rest hrest k
      simpa [jsGet, jsLookup, hq] using this

theorem WFdup_set :
    ∀ (m : ResultMap), WFdup m → ∀ (k : String) (l : List JsValue),
      l ≠ [] → WFdup (jsObjSet m k (JsValue.arr l))
  | [], _, k, l, hl => by
    intro p hp
    simp [jsObjSet] at hp
    exact ⟨l, hl, by rw [hp]⟩
  | (q, v) :: rest, h, k, l, hl => by
    have hrest : WFdup rest := fun p hp => h p (List.mem_cons_of_mem _ hp)
    by_cases hq : q = k
    · intro p hp
      simp only [jsObjSet, if_pos hq] at hp
      rcases List.mem_cons.1 hp with hp | hp
      · exact ⟨l, hl, by rw [hp]⟩
      · exact h p (List.mem_cons_of_mem _ hp)
    · intro p hp
      simp only [jsObjSet, if_neg hq] at hp
      rcases List.mem_cons.1 hp with hp | hp
      · exact h p (by rw [hp]; exact List.mem_cons_self _ _)
      · exact WFdup_set rest hrest k l hl p hp

theorem doDupKeys_step (c : Cfg) (m : ResultMap) (row : Row)
    (h : WFdup m) :
    ∃ m2, doDupKeys c m row = some m2 ∧ WFdup m2 ∧
      ∀ k, jsGet m2 k
        = if getKey c.keyColNames c.keyDelimiter row = k
          then extendArr (jsGet m k) [getValue true c.valColNames row]
          else jsGet m k := by
  rcases WFdup_jsGet m h (getKey c.keyColNames c.keyDelimiter row) with
    hu | ⟨l, hl, ha⟩
  · refine ⟨jsObjSet m (getKey c.keyColNames c.keyDelimiter row)
      (JsValue.arr [getValue true c.valColNames row]), ?_, ?_, ?_⟩
    · simp [doDupKeys, hu, jsFalsy]
    · exact WFdup_set m h _ _ (List.cons_ne_nil _ _)
    · intro k
      by_cases hk : getKey c.keyColNames c.keyDelimiter row = k
      · rw [if_pos hk, ← hk, hu, jsGet_set_self]
        rfl
      · rw [if_neg hk, jsGet_set_ne m _ hk]
  · refine ⟨jsObjSet m (getKey c.keyColNames c.keyDelimiter row)
      (JsValue.arr (l ++ [getValue true c.valColNames row])), ?_, ?_, ?_⟩
    · simp [doDupKeys, ha, jsFalsy]
    · exact WFdup_set m h _ _ (by simp)
    · intro k
      by_cases hk : getKey c.keyColNames c.keyDelimiter row = k
      · rw [if_pos hk, ← hk, ha, jsGet_set_self, extendArr_arr]
      · rw [if_neg hk, jsGet_set_ne m _ hk]

theorem processRows_true (c : Cfg) :
    ∀ (rows : List Row) (m : ResultMap), WFdup m →
      ∃ m2, processRows true c m rows = some m2 ∧ WFdup m2 ∧
        ∀ k, jsGet m2 k = extendArr (jsGet m k) (projList c k rows)
  | [], m, h => ⟨m, rfl, h, fun _ => (extendArr_nil _).symm⟩
  | r :: rs, m, h => by
    obtain ⟨m1, hdo, hWF1, hget1⟩ := doDupKeys_step c m r h
    obtain ⟨m2, hrec, hWF2, hget2⟩ := processRows_true c rs m1 hWF1
    refine ⟨m2, ?_, hWF2, ?_⟩
    · simp [processRows, applyRow, hdo, hrec]
    · intro k
      rw [hget2 k, hget1 k]
      by_cases hk : getKey c.keyColNames c.keyDelimiter r = k
      · rw [if_pos hk]
        have hp : projList c k (r :: rs)
            = getValue true c.valColNames r :: projList c k rs := by
          simp [projList, List.filter_cons, hk]
        rw [hp]
        rcases WFdup_jsGet m h k with hu | ⟨l, _, ha⟩
        · rw [hu]
          cases projList c k rs <;> simp [extendArr]
        · rw [ha, extendArr_arr, extendArr_arr, extendArr_arr]
          simp
      · rw [if_neg hk]
        have hp : projList c k (r :: rs) = projList c k rs := by
          simp [projList, List.filter_cons, hk]
        rw [hp]

/-! ## Value projector refinement -/

theorem jsObjSet_not_mem :
    ∀ (o : List (String × JsValue)) (k : String) (v : JsValue),
      jsLookup o k = none → jsObjSet o k v = o ++ [(k, v)]
  | [], _, _, _ => rfl
  | (q, w) :: rest, k, v, h => by
    by_cases hq : q = k
    · simp [jsLookup, hq] at h
    · simp only [jsLookup, if_neg hq] at h
      simp only [jsObjSet, if_neg hq, List.cons_append,
        jsObjSet_not_mem rest k v h]

theorem jsLookup_append_one :
    ∀ (o : List (String × JsValue)) (x k : String) (w : JsValue),
      jsLookup o x = none → x ≠ k →
      jsLookup (o ++ [(k, w)]) x = none
  | [], x, k, w, _, hxk => by
    have : ¬k = x := fun h => hxk h.symm
    simp [jsLookup, this]
  | (q, u) :: rest, x, k, w, h, hxk => by
    by_cases hq : q = x
    · simp [jsLookup, hq] at h
    · simp only [jsLookup, if_neg hq] at h
      simp only [List.cons_append, jsLookup, if_neg hq]
      exact jsLookup_append_one rest x k w h hxk

theorem getValue_fold (row : Row) :
    ∀ (l : List String) (acc : List (String × JsValue)),
      l.Nodup → (∀ c ∈ l, jsLookup acc c = none) →
      l.foldl
        (fun v colName => jsObjSet v colName (optToVal (rowGet row colName)))
        acc
        = acc ++ l.map (fun c => (c, optToVal (rowGet row c)))
  | [], acc, _, _ => by simp
  | c :: cs, acc, hnd, hl => by
    rw [List.foldl_cons,
      jsObjSet_not_mem acc c _ (hl c (List.mem_cons_self _ _))]
    have hc : c ∉ cs := (List.nodup_cons.1 hnd).1
    have hl2 : ∀ x ∈ cs, jsLookup (acc ++ [(c, optToVal (rowGet row c))]) x
        = none := by
      intro x hx
      exact jsLookup_append_one acc x c _ (hl x (List.mem_cons_of_mem _ hx))
        (fun hxx => hc (hxx ▸ hx))
    rw [getValue_fold row cs (acc ++ [(c, optToVal (rowGet row c))])
      (List.nodup_cons.1 hnd).2 hl2]
    simp

theorem getValue_eq_projectSpec (valColNames : List String) (row : Row)
    (h : valColNames.Nodup) :
    getValue false valColNames row = projectSpec valColNames row := by
  cases valColNames with
  | nil => rfl
  | cons a rest =>
    cases rest with
    | nil => rfl
    | cons b rest2 =>
      have hfold := getValue_fold row (a :: b :: rest2) [] h (fun _ _ => rfl)
      simp only [getValue, projectSpec, if_neg, List.length_cons,
        Nat.succ_ne_zero, hfold, List.nil_append, Bool.false_eq_true,
        if_false]
      simp

/-! ## Multi-source sequencer lemmas -/

/-- All rows contributed by a source list, in source order then in-source
row order. -/
def allRows (sources : List Source) : List Row :=
  (sources.map Source.rows).flatten

theorem allRows_cons (s : Source) (rest : List Source) :
    allRows (s :: rest) = s.rows ++ allRows rest := by
  simp [allRows]

theorem processRows_append (dup : Bool) (c : Cfg) :
    ∀ (a b : List Row) (m : ResultMap),
      processRows dup c m (a ++ b)
        = match processRows dup c m a with
          | none => none
          | some m2 => processRows dup c m2 b
  | [], _, _ => rfl
  | r :: rs, b, m => by
    simp only [List.cons_append, processRows]
    cases applyRow dup c m r with
    | none => rfl
    | some m2 => exact processRows_append dup c rs b m2

theorem doIt_clean (dup : Bool) (c : Cfg) :
    ∀ (sources : List Source) (m : ResultMap),
      (∀ s ∈ sources, s.err = none) →
      doIt dup c m sources
        = match processRows dup c m (allRows sources) with
          | none => none
          | some m2 => some (none, m2)
  | [], _, _ => rfl
  | s :: rest, m, h => by
    have hs : s.err = none := h s (List.mem_cons_self _ _)
    have hrest : ∀ t ∈ rest, t.err = none :=
      fun t ht => h t (List.mem_cons_of_mem _ ht)
    rw [allRows_cons, processRows_append]
    simp only [doIt]
    cases processRows dup c m s.rows with
    | none => rfl
    | some m2 =>
      rw [hs]
      exact doIt_clean dup c rest m2 hrest

theorem doIt_fail (dup : Bool) (c : Cfg) (e : String) :
    ∀ (pre : List Source) (s : Source) (post : List Source)
      (m : ResultMap),
      (∀ p ∈ pre, p.err = none) → s.err = some e →
      doIt dup c m (pre ++ s :: post)
        = match processRows dup c m (allRows pre ++ s.rows) with
          | none => none
          | some m2 => some (some e, m2)
  | [], s, post, m, _, hs => by
    have hr : allRows [] ++ s.rows = s.rows := by simp [allRows]
    rw [List.nil_append, hr]
    simp only [doIt]
    cases processRows dup c m s.rows with
    | none => rfl
    | some m2 => rw [hs]
  | p :: ps, s, post, m, h, hs => by
    have hp : p.err = none := h p (List.mem_cons_self _ _)
    have hps : ∀ q ∈ ps, q.err = none :=
      fun q hq => h q (List.mem_cons_of_mem _ hq)
    have hr : allRows (p :: ps) ++ s.rows = p.rows ++ (allRows ps ++ s.rows) := by
      rw [allRows_cons, List.append_assoc]
    rw [List.cons_append, hr, processRows_append]
    simp only [doIt]
    cases processRows dup c m p.rows with
    | none => rfl
    | some m2 =>
      rw [hp]
      exact doIt_fail dup c e ps s post m2 hps hs

theorem processRows_total (dup : Bool) (c : Cfg) (rows : List Row) :
    ∃ m, processRows dup c [] rows = some m := by
  cases dup with
  | false => exact ⟨rows.foldl (doNormal c) [], processRows_false c rows []⟩
  | true =>
    obtain ⟨m, hm, _, _⟩ := processRows_true c rows [] WFdup_nil
    exact ⟨m, hm⟩

/-! ## Sanity checks: the worked examples of the source's own comments -/

theorem sports_example :
    processRows true ⟨["Name"], "_", ["Sport"]⟩ []
      [[("Name", "Joe"), ("Sport", "Soccer")],
       [("Name", "Sally"), ("Sport", "Rugby")],
       [("Name", "Joe"), ("Sport", "Boxing")],
       [("Name", "Sally"), ("Sport", "Sailing")]]
    = some [("Joe", JsValue.arr [JsValue.str "Soccer", JsValue.str "Boxing"]),
            ("Sally", JsValue.arr [JsValue.str "Rugby", JsValue.str "Sailing"])] :=
  rfl

theorem ssn_example :
    processRows false ⟨["Name"], "_", ["SSN"]⟩ []
      [[("Name", "Bill"), ("SSN", "111-22-3333")],
       [("Name", "Sue"), ("SSN", "444-55-6666")]]
    = some [("Bill", JsValue.str "111-22-3333"),
            ("Sue", JsValue.str "444-55-6666")] :=
  rfl

/-! ## Claims -/

/-- Claim C1: with duplicateKeysMode true, every processed row appends its
projected value to the ordered sequence at the row's composite key (the
sequence starts empty when the key is new), the projected value is the
row's value for the first entry of the value-column spec and never a
sub-mapping, and each key's sequence lists the matching rows' values in
row-arrival order. -/
theorem claim1_dup_accumulation (c : Cfg) (rows : List Row) :
    ∃ m, processRows true c [] rows = some m ∧
      (∀ k, jsGet m k
        = match projList c k rows with
          | [] => JsValue.undef
          | vs => JsValue.arr vs) ∧
      (∀ row, getValue true c.valColNames row
        = optToVal (rowGet row (jsStr c.valColNames.head?))) ∧
      (∀ row l, getValue true c.valColNames row ≠ JsValue.obj l) := by
  obtain ⟨m, hp, _, hget⟩ := processRows_true c rows [] WFdup_nil
  refine ⟨m, hp, ?_, fun _ => rfl, ?_⟩
  · intro k
    rw [hget k]
    cases projList c k rows <;> rfl
  · intro row l hco
    cases hr : rowGet row (jsStr c.valColNames.head?) <;>
      simp [getValue, optToVal, hr] at hco

/-- Claim C2: with duplicateKeysMode false, processing never fails and the
final map holds, at each composite key, exactly the projected value of the
last row that produced that key (last-writer-wins on collisions). -/
theorem claim2_overwrite_last_writer_wins (c : Cfg) (rows : List Row) :
    ∃ m, processRows false c [] rows = some m ∧
      ∀ k, jsGet m k
        = match lastMatch c k rows with
          | some r => getValue false c.valColNames r
          | none => JsValue.undef := by
  refine ⟨rows.foldl (doNormal c) [], processRows_false c rows [], ?_⟩
  intro k
  rw [foldl_doNormal_get c rows [] k]
  cases lastMatch c k rows <;> rfl

/-- Claim C3: with duplicateKeysMode false the projected value is the whole
row for an empty value-column spec, the scalar for a singleton spec, and
otherwise a new sub-mapping of exactly the listed columns in listed order
(all other columns excluded), as stated by the spec-side `projectSpec`. -/
theorem claim3_value_projection (valColNames : List String) (row : Row)
    (h : valColNames.Nodup) :
    getValue false valColNames row = projectSpec valColNames row :=
  getValue_eq_projectSpec valColNames row h

theorem claim3_value_projection_witness :
    (["SSN", "Birthplace"] : List String).Nodup ∧
      getValue false ["SSN", "Birthplace"]
          [("Name", "Bill"), ("SSN", "111-22-3333"),
           ("Birthplace", "Rochester NY"), ("Birthdate", "3/11/1934")]
        = projectSpec ["SSN", "Birthplace"]
          [("Name", "Bill"), ("SSN", "111-22-3333"),
           ("Birthplace", "Rochester NY"), ("Birthdate", "3/11/1934")] :=
  ⟨by decide, claim3_value_projection _ _ (by decide)⟩

/-- Claim C4: the composite key is the row's values for the key columns in
order, joined by the delimiter with no leading or trailing delimiter; for
{First: Bill, Last: Smith} with key columns [First, Last] the key is
"Bill_Smith" under the default delimiter and "Bill-Smith" under "-". -/
theorem claim4_composite_key :
    (∀ (cols : List String) (delim : String) (row : Row),
      getKey cols delim row
        = joinSpec delim (cols.map fun cn => jsStr (rowGet row cn))) ∧
    getKey ["First", "Last"] "_" [("First", "Bill"), ("Last", "Smith")]
      = "Bill_Smith" ∧
    getKey ["First", "Last"] "-" [("First", "Bill"), ("Last", "Smith")]
      = "Bill-Smith" :=
  ⟨getKey_join, by decide, by decide⟩

/-- Claim C5: sources are drained one at a time in the given order into the
single shared map, so the finished build equals processing the
concatenation of all sources' rows; consequently a later source's same-key
entries overwrite an earlier source's in non-duplicate mode and append
after them in duplicate mode. -/
theorem claim5_sources_in_order (dup : Bool) (c : Cfg)
    (sources : List Source) (h : ∀ s ∈ sources, s.err = none) :
    ∃ m, doIt dup c [] sources = some (none, m) ∧
      processRows dup c [] (allRows sources) = some m ∧
      (dup = false → ∀ k, jsGet m k
        = match lastMatch c k (allRows sources) with
          | some r => getValue false c.valColNames r
          | none => JsValue.undef) ∧
      (dup = true → ∀ k, jsGet m k
        = match projList c k (allRows sources) with
          | [] => JsValue.undef
          | vs => JsValue.arr vs) := by
  cases dup with
  | false =>
    have hall := processRows_false c (allRows sources) []
    refine ⟨(allRows sources).foldl (doNormal c) [], ?_, hall, ?_, ?_⟩
    · rw [doIt_clean false c sources [] h, hall]
    · intro _ k
      rw [foldl_doNormal_get c (allRows sources) [] k]
      cases lastMatch c k (allRows sources) <;> rfl
    · intro h2
      exact absurd h2 (by simp)
  | true =>
    obtain ⟨m, hm, _, hget⟩ :=
      processRows_true c (allRows sources) [] WFdup_nil
    refine ⟨m, ?_, hm, ?_, ?_⟩
    · rw [doIt_clean true c sources [] h, hm]
    · intro h2
      exact absurd h2 (by simp)
    · intro _ k
      rw [hget k]
      cases projList c k (allRows sources) <;> rfl

/-- A small configuration and two clean single-row sources sharing the key
"Bill", used to instantiate the multi-source claims. -/
def exCfg : Cfg := ⟨["Name"], "_", ["SSN"]⟩

def exSrcA : Source := ⟨[[("Name", "Bill"), ("SSN", "1")]], none⟩

def exSrcB : Source := ⟨[[("Name", "Bill"), ("SSN", "2")]], none⟩

theorem claim5_sources_in_order_witness :
    (∀ s ∈ [exSrcA, exSrcB], s.err = none) ∧
      (∃ m, doIt false exCfg [] [exSrcA, exSrcB] = some (none, m) ∧
        processRows false exCfg [] (allRows [exSrcA, exSrcB]) = some m ∧
        (false = false → ∀ k, jsGet m k
          = match lastMatch exCfg k (allRows [exSrcA, exSrcB]) with
            | some r => getValue false exCfg.valColNames r
            | none => JsValue.undef) ∧
        (false = true → ∀ k, jsGet m k
          = match projList exCfg k (allRows [exSrcA, exSrcB]) with
            | [] => JsValue.undef
            | vs => JsValue.arr vs)) := by
  have h : ∀ s ∈ [exSrcA, exSrcB], s.err = none := by
    intro s hs
    rcases List.mem_cons.1 hs with h1 | hs2
    · subst h1; rfl
    · rcases List.mem_cons.1 hs2 with h2 | h3
      · subst h2; rfl
      · cases h3
  exact ⟨h, claim5_sources_in_order false exCfg [exSrcA, exSrcB] h⟩

/-- Claim C6: invoking build with no key-column specification yields the
configuration error, whatever the other options and input sources are; no
input is read (the outcome is the same for every source list, including
failing ones) and the build aborts with no callback invocation. -/
theorem claim6_missing_keycols_config_error (input : List Source)
    (valColNames : Option StrOrList) (dup : Bool) (kd : Option String) :
    build ⟨input, none, valColNames, dup, kd⟩
      = BuildResult.configError "options.keyColNames required." := rfl

/-- Claim C7: when the source after `pre` fails to parse (after emitting
some rows), the build calls back exactly once with that error, the sources
after it are never processed (the outcome does not depend on `post`), and
the map state reached is exactly the aggregation of all prior sources'
rows plus the failing source's emitted rows: nothing is rolled back. -/
theorem claim7_parse_failure_aborts (dup : Bool) (c : Cfg)
    (pre : List Source) (s : Source) (post : List Source) (e : String)
    (hpre : ∀ p ∈ pre, p.err = none) (hs : s.err = some e) :
    ∃ m, doIt dup c [] (pre ++ s :: post) = some (some e, m) ∧
      processRows dup c [] (allRows pre ++ s.rows) = some m := by
  obtain ⟨m, hm⟩ := processRows_total dup c (allRows pre ++ s.rows)
  refine ⟨m, ?_, hm⟩
  rw [doIt_fail dup c e pre s post [] hpre hs, hm]

/-- The failing source used to instantiate claim C7: one emitted row, then
a parse error. -/
def exSrcBad : Source := ⟨[[("Name", "Sue"), ("SSN", "9")]], some "bad csv"⟩

theorem claim7_parse_failure_aborts_witness :
    (∀ p ∈ [exSrcA], p.err = none) ∧ exSrcBad.err = some "bad csv" ∧
      (∃ m, doIt false exCfg [] ([exSrcA] ++ exSrcBad :: [exSrcB])
          = some (some "bad csv", m) ∧
        processRows false exCfg [] (allRows [exSrcA] ++ exSrcBad.rows)
          = some m) := by
  have h : ∀ p ∈ [exSrcA], p.err = none := by
    intro p hp
    rcases List.mem_cons.1 hp with h1 | h2
    · subst h1; rfl
    · cases h2
  exact ⟨h, rfl,
    claim7_parse_failure_aborts false exCfg [exSrcA] exSrcBad [exSrcB]
      "bad csv" h rfl⟩

/-- Claim C8: referencing a column absent from a row raises no error — the
builders are total functions — and the absent column contributes the
undefined string representation "undefined" to the composite key and the
undefined value as the projected value (in both modes). -/
theorem claim8_missing_column_permissive (row : Row) (cn : String)
    (h : rowGet row cn = none) :
    (∀ (cols : List String) (delim : String),
      getKey cols delim row
        = joinSpec delim (cols.map fun x =>
            if x = cn then "undefined" else jsStr (rowGet row x))) ∧
    getValue false [cn] row = JsValue.undef ∧
    getValue true [cn] row = JsValue.undef := by
  refine ⟨?_, ?_, ?_⟩
  · intro cols delim
    have hfun : (fun x => jsStr (rowGet row x))
        = (fun x => if x = cn then "undefined" else jsStr (rowGet row x)) := by
      funext x
      by_cases hx : x = cn
      · rw [if_pos hx, hx, h]
        rfl
      · rw [if_neg hx]
    rw [getKey_join, hfun]
  · simp [getValue, jsStr, h, optToVal]
  · simp [getValue, jsStr, h, optToVal]

theorem claim8_missing_column_permissive_witness :
    rowGet [("Name", "Bill")] "SSN" = none ∧
      getKey ["Name", "SSN"] "_" [("Name", "Bill")]
        = joinSpec "_" (["Name", "SSN"].map fun x =>
            if x = "SSN" then "undefined"
            else jsStr (rowGet [("Name", "Bill")] x)) ∧
      getValue false ["SSN"] [("Name", "Bill")] = JsValue.undef ∧
      getValue true ["SSN"] [("Name", "Bill")] = JsValue.undef :=
  ⟨rfl,
   (claim8_missing_column_permissive [("Name", "Bill")] "SSN" rfl).1
     ["Name", "SSN"] "_",
   (claim8_missing_column_permissive [("Name", "Bill")] "SSN" rfl).2.1,
   (claim8_missing_column_permissive [("Name", "Bill")] "SSN" rfl).2.2⟩

/-- Claim C9: an empty-string keyDelimiter is falsy, so `options.keyDelimiter
|| "_"` resolves it to the default underscore: a build with delimiter ""
is indistinguishable from one with the delimiter absent (or explicitly
"_"), and multi-column keys still come out underscore-joined. -/
theorem claim9_empty_delimiter_defaults (o : Options) :
    (build { o with keyDelimiter := some "" }
      = build { o with keyDelimiter := none }) ∧
    (build { o with keyDelimiter := some "" }
      = build { o with keyDelimiter := some "_" }) ∧
    build ⟨[⟨[[("First", "Bill"), ("Last", "Smith"), ("SSN", "111")]], none⟩],
        some (StrOrList.list ["First", "Last"]),
        some (StrOrList.list ["SSN"]), false, some ""⟩
      = BuildResult.done [("Bill_Smith", JsValue.str "111")] := by
  obtain ⟨inp, kc, vc, dk, kd⟩ := o
  exact ⟨rfl, rfl, rfl⟩

/-- Claim C10: in duplicate-keys mode, after any number of processed rows
(hence at every point during and after a build), every value stored in the
map is a non-empty array — never a scalar, a sub-mapping, or an empty
sequence. -/
theorem claim10_dup_values_nonempty_arrays (c : Cfg) (rows : List Row)
    (n : Nat) :
    ∃ m, processRows true c [] (rows.take n) = some m ∧
      ∀ p ∈ m, ∃ l, l ≠ [] ∧ p.2 = JsValue.arr l := by
  obtain ⟨m, hp, hWF, _⟩ := processRows_true c (rows.take n) [] WFdup_nil
  exact ⟨m, hp, hWF⟩

end C2j
